import Mathlib

/-!
Shallow embedding of `qf_lib/backtesting/order/order_factory.py` (class
`OrderFactory`): the allocation-reconciliation engine turning quantity /
target-quantity / value / percent / target-value / target-percent requests
into lists of orders.

Python floats are modelled as rationals (the specification treats all
amounts as real numbers), Python dicts as insertion-ordered association
lists with the replace-in-place update semantics of `d[k] = v`, and the
external collaborators (broker positions and portfolio value, the
contract-to-ticker mapper, the data provider's last-price lookup) as a
record of functions.  Exceptions raised by the Python code are modelled
with `Except`; the reads performed against the external collaborators are
recorded in an explicit trace list.
-/

namespace QfLib

/-- Modelled from the spec: an opaque price identifier used by the Price
Resolver (a ticker).  The mapping and price lookup only need decidable
equality on it. -/
abbrev Ticker := Nat

/-- Modelled from the spec: opaque execution-style enumeration, passed
through unchanged to every `Order`. -/
abbrev ExecStyle := Nat

/-- Modelled from the spec: opaque time-in-force enumeration, passed
through unchanged to every `Order`. -/
abbrev TimeInForce := Nat

/-- Modelled from the spec: a tradable-asset reference with its contract
multiplier (`contract.contract_size` in the source). -/
structure Contract where
  symbol : Nat
  contract_size : ℚ
deriving DecidableEq, Repr

/-- Modelled from the spec: the result unit.  `Order(contract, quantity,
execution_style, time_in_force)` as constructed at
`order_factory.py:76`; the quantity field is rational because the Python
constructor receives whatever number the caller computed. -/
structure Order where
  contract : Contract
  quantity : ℚ
  execution_style : ExecStyle
  time_in_force : TimeInForce
deriving DecidableEq, Repr

/-- Modelled from the spec: a read-only position snapshot with
`position.contract()` and `position.quantity()` (a signed integer
holding). -/
structure Position where
  contract : Contract
  quantity : Int
deriving DecidableEq, Repr

/-- Modelled from the spec: the external collaborators of the engine —
`broker.get_positions()`, `broker.get_portfolio_value()`,
`contract_to_ticker_mapper.contract_to_ticker` (`none` when the contract
is unmapped, which the source treats as a failure), and
`data_provider.get_last_available_price` (`none` when no price is
resolvable for a ticker, which the source treats as a failure).  The
sampling-frequency argument is a pass-through resolved inside the price
lookup and is therefore not modelled separately. -/
structure Env where
  positions : List Position
  portfolio_value : ℚ
  contract_to_ticker : Contract → Option Ticker
  last_price : Ticker → Option ℚ

/-- The fault taxonomy: the tolerance assertion (`assert 0.0 <=
tolerance_percentage < 1.0`), an unmapped contract, a ticker with no
resolvable price, and a zero divisor (`price * contract_size == 0`, a
division-by-zero in the source). -/
inductive Fault where
  | validation : Fault
  | mapping : Contract → Fault
  | priceUnavailable : Ticker → Fault
  | zeroDivisor : Ticker → Fault
deriving DecidableEq, Repr

/-- Faults of the `PriceUnavailableError` class: no resolvable price, or a
zero divisor. -/
def Fault.priceClass : Fault → Bool
  | Fault.priceUnavailable _ => true
  | Fault.zeroDivisor _ => true
  | _ => false

/-- A read performed against an external collaborator. -/
inductive ReadEvent where
  | getPositions : ReadEvent
  | getPortfolioValue : ReadEvent
  | getLastAvailablePrice : List Ticker → ReadEvent
deriving DecidableEq, Repr

/-- Python-dict update `d[k] = v` on an insertion-ordered association
list: if the key is present its value is replaced in place, otherwise the
pair is appended at the end. -/
def dinsert {κ α : Type} [DecidableEq κ] (k : κ) (v : α) : List (κ × α) → List (κ × α)
  | [] => [(k, v)]
  | (k', v') :: rest => if k' = k then (k, v) :: rest else (k', v') :: dinsert k v rest

/-- Python-dict lookup `d.get(k)` on an association list. -/
def dget? {κ α : Type} [DecidableEq κ] (k : κ) : List (κ × α) → Option α
  | [] => none
  | (k', v) :: rest => if k' = k then some v else dget? k rest

/-- `OrderFactory.orders` body (`order_factory.py:73-78`): one `Order` per
pair with a non-zero quantity, zero-quantity pairs dropped, quantities
passed to the `Order` constructor unchanged. -/
def ordersFn (quantities : List (Contract × ℚ)) (es : ExecStyle) (tif : TimeInForce) :
    List Order :=
  (quantities.filter (fun p => decide (p.2 ≠ 0))).map
    (fun p => { contract := p.1, quantity := p.2, execution_style := es, time_in_force := tif })

/-- `OrderFactory.orders` as a public call shape: no external reads, never
fails. -/
def ordersCall (quantities : List (Contract × ℚ)) (es : ExecStyle) (tif : TimeInForce) :
    Except Fault (List Order) × List ReadEvent :=
  (Except.ok (ordersFn quantities es tif), [])

/-- The dict comprehension `{position.contract(): position for position in
self.broker.get_positions()}` (`order_factory.py:125`). -/
def contractToPositions (ps : List Position) : List (Contract × Position) :=
  ps.foldl (fun acc pos => dinsert pos.contract pos acc) []

/-- `current_quantity` for a contract (`order_factory.py:128-134`): the
held quantity of the looked-up position, or `0` when no position exists. -/
def currentQuantity (env : Env) (c : Contract) : ℚ :=
  match dget? c (contractToPositions env.positions) with
  | some pos => (pos.quantity : ℚ)
  | none => 0

/-- The loop of `OrderFactory.target_orders` (`order_factory.py:127-139`)
building the `quantities` dict: per contract, `quantity = target -
current`; when `abs(quantity) > tolerance` and `quantity != 0`, store
`math.floor(quantity)`. -/
def targetLoop (env : Env) (tolqs : List (Contract × ℚ)) (acc : List (Contract × ℚ)) :
    List (Contract × ℚ) → List (Contract × ℚ)
  | [] => acc
  | (c, target) :: rest =>
    let q : ℚ := target - currentQuantity env c
    let tol : ℚ := (dget? c tolqs).getD 0
    if |q| > tol ∧ q ≠ 0 then
      targetLoop env tolqs (dinsert c ((⌊q⌋ : ℤ) : ℚ) acc) rest
    else
      targetLoop env tolqs acc rest

/-- `OrderFactory.target_orders` (`order_factory.py:80-141`): reads the
positions once, reconciles each target against the current holding and
delegates to `orders`.  An absent `tolerance_quantities` argument is the
empty dict. -/
def targetOrdersCall (env : Env) (target_quantities tolerance_quantities : List (Contract × ℚ))
    (es : ExecStyle) (tif : TimeInForce) : Except Fault (List Order) × List ReadEvent :=
  (Except.ok (ordersFn (targetLoop env tolerance_quantities [] target_quantities) es tif),
    [ReadEvent.getPositions])

/-- `OrderFactory._make_tickers_to_contract_and_amount_of_money`
(`order_factory.py:322-329`): builds the ticker-keyed dict of
`(contract, amount_of_money)` pairs; an unmapped contract raises. -/
def makeTickers (env : Env) (acc : List (Ticker × (Contract × ℚ))) :
    List (Contract × ℚ) → Except Fault (List (Ticker × (Contract × ℚ)))
  | [] => Except.ok acc
  | (c, m) :: rest =>
    match env.contract_to_ticker c with
    | none => Except.error (Fault.mapping c)
    | some t => makeTickers env (dinsert t (c, m) acc) rest

/-- The loop of `_calculate_target_shares_and_tolerances`
(`order_factory.py:310-318`): per ticker, look the price up (`none`
raises), `divisor = price * contract_size` (a zero divisor raises at the
division), `target = money / divisor`, `tolerance = target *
tolerance_percentage`. -/
def resolveLoop (env : Env) (tp : ℚ) (tq tolq : List (Contract × ℚ)) :
    List (Ticker × (Contract × ℚ)) → Except Fault (List (Contract × ℚ) × List (Contract × ℚ))
  | [] => Except.ok (tq, tolq)
  | (t, (c, m)) :: rest =>
    match env.last_price t with
    | none => Except.error (Fault.priceUnavailable t)
    | some price =>
      let divisor : ℚ := price * c.contract_size
      if divisor = 0 then Except.error (Fault.zeroDivisor t)
      else
        let target : ℚ := m / divisor
        resolveLoop env tp (dinsert c target tq) (dinsert c (target * tp) tolq) rest

/-- `OrderFactory._calculate_target_shares_and_tolerances`
(`order_factory.py:286-320`): maps contracts to tickers, performs one
last-price read for all tickers, and resolves share targets and share
tolerances. -/
def calcTargetShares (env : Env) (money : List (Contract × ℚ)) (tp : ℚ) :
    Except Fault (List (Contract × ℚ) × List (Contract × ℚ)) × List ReadEvent :=
  match makeTickers env [] money with
  | Except.error f => (Except.error f, [])
  | Except.ok tdict =>
    (resolveLoop env tp [] [] tdict,
      [ReadEvent.getLastAvailablePrice (tdict.map Prod.fst)])

/-- `OrderFactory.value_orders` (`order_factory.py:143-171`): resolve
share quantities from money with tolerance 0, floor each quantity, and
delegate to `orders`.  Current holdings are never consulted. -/
def valueOrders (env : Env) (values : List (Contract × ℚ)) (es : ExecStyle)
    (tif : TimeInForce) : Except Fault (List Order) × List ReadEvent :=
  match calcTargetShares env values 0 with
  | (Except.error f, tr) => (Except.error f, tr)
  | (Except.ok (quantities, _), tr) =>
    let int_quantities := quantities.map (fun p => (p.1, ((⌊p.2⌋ : ℤ) : ℚ)))
    (Except.ok (ordersFn int_quantities es tif), tr)

/-- `OrderFactory.percent_orders` (`order_factory.py:173-201`): read the
portfolio value once, scale each percentage into money, delegate to
`value_orders`. -/
def percentOrders (env : Env) (percentages : List (Contract × ℚ)) (es : ExecStyle)
    (tif : TimeInForce) : Except Fault (List Order) × List ReadEvent :=
  let values := percentages.map (fun p => (p.1, env.portfolio_value * p.2))
  let r := valueOrders env values es tif
  (r.1, ReadEvent.getPortfolioValue :: r.2)

/-- `OrderFactory.target_value_orders` (`order_factory.py:203-248`): the
tolerance assertion runs first (before every external read); then share
targets and tolerances are resolved and fed to `target_orders`. -/
def targetValueOrders (env : Env) (target_values : List (Contract × ℚ)) (es : ExecStyle)
    (tif : TimeInForce) (tp : ℚ) : Except Fault (List Order) × List ReadEvent :=
  if 0 ≤ tp ∧ tp < 1 then
    match calcTargetShares env target_values tp with
    | (Except.error f, tr) => (Except.error f, tr)
    | (Except.ok (tq, tolq), tr) =>
      let r := targetOrdersCall env tq tolq es tif
      (r.1, tr ++ r.2)
  else (Except.error Fault.validation, [])

/-- `OrderFactory.target_percent_orders` (`order_factory.py:250-284`): the
tolerance assertion runs first; then the portfolio value is read, each
percentage scaled into money, and `target_value_orders` takes over. -/
def targetPercentOrders (env : Env) (target_percentages : List (Contract × ℚ)) (es : ExecStyle)
    (tif : TimeInForce) (tp : ℚ) : Except Fault (List Order) × List ReadEvent :=
  if 0 ≤ tp ∧ tp < 1 then
    let target_values := target_percentages.map (fun p => (p.1, env.portfolio_value * p.2))
    let r := targetValueOrders env target_values es tif tp
    (r.1, ReadEvent.getPortfolioValue :: r.2)
  else (Except.error Fault.validation, [])

/-- A call result whose order list, when one is returned, contains no
zero-quantity order. -/
def okNoZero (r : Except Fault (List Order) × List ReadEvent) : Prop :=
  ∀ l, r.1 = Except.ok l → ∀ o ∈ l, o.quantity ≠ 0

/-- Some entry of the ticker dict has no resolvable price, or its divisor
`price * contract_size` is zero. -/
def badPrice (env : Env) (l : List (Ticker × (Contract × ℚ))) : Prop :=
  ∃ t c m, (t, (c, m)) ∈ l ∧
    (env.last_price t = none ∨ ∃ p, env.last_price t = some p ∧ p * c.contract_size = 0)

/-- Sample contract used by concrete witnesses. -/
def cA : Contract := { symbol := 0, contract_size := 1 }

/-- A second sample contract. -/
def cB : Contract := { symbol := 1, contract_size := 1 }

/-- Sample environment: no positions, portfolio value 1000, every
contract mapped to its symbol, every ticker priced at 100. -/
def env0 : Env :=
  { positions := []
    portfolio_value := 1000
    contract_to_ticker := fun c => some c.symbol
    last_price := fun _ => some 100 }

/-- Sample environment with unit prices: no positions, portfolio value 1,
every contract mapped to its symbol, every ticker priced at 1. -/
def env1 : Env :=
  { positions := []
    portfolio_value := 1
    contract_to_ticker := fun c => some c.symbol
    last_price := fun _ => some 1 }

/-- Sample environment in which no ticker has a resolvable price. -/
def envNoPrice : Env :=
  { positions := []
    portfolio_value := 1
    contract_to_ticker := fun c => some c.symbol
    last_price := fun _ => none }

/-- Basic association-list lemmas. -/

theorem dget?_dinsert {κ α : Type} [DecidableEq κ] (k k' : κ) (v : α) (l : List (κ × α)) :
    dget? k' (dinsert k v l) = if k' = k then some v else dget? k' l := by
  induction l with
  | nil =>
    by_cases h : k' = k
    · subst h
      simp [dinsert, dget?]
    · simp [dinsert, dget?, h, Ne.symm h]
  | cons hd tl ih =>
    obtain ⟨a, b⟩ := hd
    by_cases hak : a = k
    · subst hak
      by_cases h : k' = a
      · subst h
        simp [dinsert, dget?]
      · simp [dinsert, dget?, h, Ne.symm h]
    · by_cases h2 : a = k'
      · subst h2
        simp [dinsert, dget?, hak]
      · simp [dinsert, dget?, hak, h2, ih]

theorem mem_dinsert {κ α : Type} [DecidableEq κ] {x : κ × α} {k : κ} {v : α}
    {l : List (κ × α)} (h : x ∈ dinsert k v l) : x = (k, v) ∨ x ∈ l := by
  induction l with
  | nil => simpa [dinsert] using h
  | cons hd tl ih =>
    obtain ⟨a, b⟩ := hd
    by_cases hak : a = k
    · subst hak
      simp [dinsert] at h
      rcases h with h | h
      · exact Or.inl h
      · exact Or.inr (List.mem_cons_of_mem _ h)
    · simp [dinsert, hak] at h
      rcases h with h | h
      · exact Or.inr (by simp [h])
      · rcases ih h with h' | h'
        · exact Or.inl h'
        · exact Or.inr (List.mem_cons_of_mem _ h')

theorem keys_dinsert {κ α : Type} [DecidableEq κ] (k : κ) (v : α) (l : List (κ × α)) :
    (dinsert k v l).map Prod.fst =
      if k ∈ l.map Prod.fst then l.map Prod.fst else l.map Prod.fst ++ [k] := by
  induction l with
  | nil => simp [dinsert]
  | cons hd tl ih =>
    obtain ⟨a, b⟩ := hd
    by_cases hak : a = k
    · subst hak
      simp [dinsert]
    · by_cases hmem : k ∈ tl.map Prod.fst <;>
        simp [dinsert, hak, Ne.symm hak, hmem, ih]

theorem nodupKeys_dinsert {κ α : Type} [DecidableEq κ] (k : κ) (v : α)
    {l : List (κ × α)} (h : (l.map Prod.fst).Nodup) :
    ((dinsert k v l).map Prod.fst).Nodup := by
  rw [keys_dinsert]
  by_cases hmem : k ∈ l.map Prod.fst
  · simpa [hmem] using h
  · rw [if_neg hmem]
    refine h.append (List.nodup_singleton k) ?_
    intro x hx hk
    rw [List.mem_singleton] at hk
    exact hmem (hk ▸ hx)

theorem dget?_eq_some_mem {κ α : Type} [DecidableEq κ] {k : κ} {v : α}
    {l : List (κ × α)} (h : dget? k l = some v) : (k, v) ∈ l := by
  induction l with
  | nil => simp [dget?] at h
  | cons hd tl ih =>
    obtain ⟨a, b⟩ := hd
    by_cases hak : a = k
    · subst hak
      simp [dget?] at h
      simp [h]
    · simp [dget?, hak] at h
      exact List.mem_cons_of_mem _ (ih h)

theorem dget?_eq_none_iff {κ α : Type} [DecidableEq κ] (k : κ) (l : List (κ × α)) :
    dget? k l = none ↔ k ∉ l.map Prod.fst := by
  induction l with
  | nil => simp [dget?]
  | cons hd tl ih =>
    obtain ⟨a, b⟩ := hd
    by_cases hak : a = k
    · subst hak
      simp [dget?]
    · simp [dget?, hak, ih, Ne.symm hak]

theorem dinsert_map {κ α β : Type} [DecidableEq κ] (f : α → β) (k : κ) (v : α)
    (l : List (κ × α)) :
    dinsert k (f v) (l.map (fun p => (p.1, f p.2))) =
      (dinsert k v l).map (fun p => (p.1, f p.2)) := by
  induction l with
  | nil => simp [dinsert]
  | cons hd tl ih =>
    obtain ⟨a, b⟩ := hd
    by_cases hak : a = k <;> simp [dinsert, hak, ih]

/-- Order-builder lemmas. -/

theorem mem_ordersFn {o : Order} {qs : List (Contract × ℚ)} {es : ExecStyle}
    {tif : TimeInForce} :
    o ∈ ordersFn qs es tif ↔
      (o.contract, o.quantity) ∈ qs ∧ o.quantity ≠ 0 ∧
        o.execution_style = es ∧ o.time_in_force = tif := by
  unfold ordersFn
  rw [List.mem_map]
  constructor
  · rintro ⟨p, hp, rfl⟩
    rw [List.mem_filter] at hp
    refine ⟨hp.1, ?_, rfl, rfl⟩
    simpa using hp.2
  · rintro ⟨hmem, hq, hes, htif⟩
    refine ⟨(o.contract, o.quantity), ?_, ?_⟩
    · rw [List.mem_filter]
      exact ⟨hmem, by simpa using hq⟩
    · cases o
      simp_all

theorem ordersFn_quantity_ne_zero {o : Order} {qs : List (Contract × ℚ)}
    {es : ExecStyle} {tif : TimeInForce} (h : o ∈ ordersFn qs es tif) :
    o.quantity ≠ 0 :=
  (mem_ordersFn.mp h).2.1

theorem ordersFn_cons_ne {a : Contract} {q : ℚ} (tl : List (Contract × ℚ))
    (es : ExecStyle) (tif : TimeInForce) (hq : q ≠ 0) :
    ordersFn ((a, q) :: tl) es tif =
      { contract := a, quantity := q, execution_style := es, time_in_force := tif } ::
        ordersFn tl es tif := by
  simp [ordersFn, hq]

theorem ordersFn_cons_zero {a : Contract} (tl : List (Contract × ℚ))
    (es : ExecStyle) (tif : TimeInForce) :
    ordersFn ((a, 0) :: tl) es tif = ordersFn tl es tif := by
  simp [ordersFn]

theorem countP_ordersFn_not_mem {c : Contract} {qs : List (Contract × ℚ)}
    (es : ExecStyle) (tif : TimeInForce) (h : c ∉ qs.map Prod.fst) :
    (ordersFn qs es tif).countP (fun o => decide (o.contract = c)) = 0 := by
  induction qs with
  | nil => simp [ordersFn]
  | cons hd tl ih =>
    obtain ⟨a, q⟩ := hd
    rw [List.map_cons] at h
    have h1 : a ≠ c := fun hc => h (hc ▸ List.mem_cons_self _ _)
    have h2 : c ∉ tl.map Prod.fst := fun hc => h (List.mem_cons_of_mem _ hc)
    by_cases hq : q = 0
    · subst hq
      rw [ordersFn_cons_zero]
      exact ih h2
    · rw [ordersFn_cons_ne tl es tif hq, List.countP_cons]
      simp [h1, ih h2]

theorem countP_ordersFn {c : Contract} {q : ℚ} {qs : List (Contract × ℚ)}
    {es : ExecStyle} {tif : TimeInForce} (hnd : (qs.map Prod.fst).Nodup)
    (hmem : (c, q) ∈ qs) :
    (ordersFn qs es tif).countP (fun o => decide (o.contract = c)) =
      if q = 0 then 0 else 1 := by
  induction qs with
  | nil => simp at hmem
  | cons hd tl ih =>
    obtain ⟨a, q'⟩ := hd
    rw [List.map_cons, List.nodup_cons] at hnd
    rcases List.mem_cons.mp hmem with heq | htl
    · obtain ⟨hca, hqq⟩ := Prod.ext_iff.mp heq
      dsimp at hca hqq
      subst hca
      subst hqq
      have hnot : c ∉ tl.map Prod.fst := hnd.1
      by_cases hq : q = 0
      · subst hq
        rw [ordersFn_cons_zero]
        simp [countP_ordersFn_not_mem es tif hnot]
      · rw [ordersFn_cons_ne tl es tif hq, List.countP_cons]
        simp [hq, countP_ordersFn_not_mem es tif hnot]
    · have hac : a ≠ c := by
        intro h
        apply hnd.1
        rw [h]
        exact List.mem_map.mpr ⟨(c, q), htl, rfl⟩
      by_cases hq' : q' = 0
      · subst hq'
        rw [ordersFn_cons_zero]
        exact ih hnd.2 htl
      · rw [ordersFn_cons_ne tl es tif hq', List.countP_cons]
        simp [hac, ih hnd.2 htl]

/-- Target-reconciliation loop lemmas. -/

theorem targetLoop_dget_not_mem (env : Env) (tolqs : List (Contract × ℚ)) {c : Contract}
    {l : List (Contract × ℚ)} (h : c ∉ l.map Prod.fst) (acc : List (Contract × ℚ)) :
    dget? c (targetLoop env tolqs acc l) = dget? c acc := by
  induction l generalizing acc with
  | nil => rfl
  | cons hd tl ih =>
    obtain ⟨a, t⟩ := hd
    rw [List.map_cons] at h
    have h1 : a ≠ c := fun hc => h (hc ▸ List.mem_cons_self _ _)
    have h2 : c ∉ tl.map Prod.fst := fun hc => h (List.mem_cons_of_mem _ hc)
    simp only [targetLoop]
    by_cases hcond : |t - currentQuantity env a| > (dget? a tolqs).getD 0 ∧
        t - currentQuantity env a ≠ 0
    · rw [if_pos hcond, ih h2, dget?_dinsert, if_neg (fun hc => h1 hc.symm)]
    · rw [if_neg hcond, ih h2]

theorem targetLoop_dget (env : Env) (tolqs : List (Contract × ℚ)) {c : Contract} {t : ℚ}
    {l : List (Contract × ℚ)} (hnd : (l.map Prod.fst).Nodup) (hmem : (c, t) ∈ l)
    (acc : List (Contract × ℚ)) :
    dget? c (targetLoop env tolqs acc l) =
      if |t - currentQuantity env c| > (dget? c tolqs).getD 0 ∧ t - currentQuantity env c ≠ 0
      then some ((⌊t - currentQuantity env c⌋ : ℤ) : ℚ)
      else dget? c acc := by
  induction l generalizing acc with
  | nil => simp at hmem
  | cons hd tl ih =>
    obtain ⟨a, t'⟩ := hd
    rw [List.map_cons, List.nodup_cons] at hnd
    rcases List.mem_cons.mp hmem with heq | htl
    · injection heq with hca htt
      subst hca
      subst htt
      simp only [targetLoop]
      by_cases hcond : |t - currentQuantity env c| > (dget? c tolqs).getD 0 ∧
          t - currentQuantity env c ≠ 0
      · rw [if_pos hcond, targetLoop_dget_not_mem env tolqs hnd.1 _, dget?_dinsert,
          if_pos rfl, if_pos hcond]
      · rw [if_neg hcond, targetLoop_dget_not_mem env tolqs hnd.1 _, if_neg hcond]
    · have hac : a ≠ c := by
        intro h
        apply hnd.1
        rw [h]
        exact List.mem_map.mpr ⟨(c, t), htl, rfl⟩
      simp only [targetLoop]
      by_cases hcond' : |t' - currentQuantity env a| > (dget? a tolqs).getD 0 ∧
          t' - currentQuantity env a ≠ 0
      · rw [if_pos hcond', ih hnd.2 htl]
        by_cases hcond : |t - currentQuantity env c| > (dget? c tolqs).getD 0 ∧
            t - currentQuantity env c ≠ 0
        · rw [if_pos hcond, if_pos hcond]
        · rw [if_neg hcond, if_neg hcond, dget?_dinsert, if_neg (fun hc => hac hc.symm)]
      · rw [if_neg hcond']
        exact ih hnd.2 htl acc

theorem targetLoop_nodupKeys (env : Env) (tolqs : List (Contract × ℚ)) :
    ∀ (l acc : List (Contract × ℚ)), (acc.map Prod.fst).Nodup →
      ((targetLoop env tolqs acc l).map Prod.fst).Nodup := by
  intro l
  induction l with
  | nil => intro acc h; exact h
  | cons hd tl ih =>
    intro acc h
    obtain ⟨a, t⟩ := hd
    simp only [targetLoop]
    by_cases hcond : |t - currentQuantity env a| > (dget? a tolqs).getD 0 ∧
        t - currentQuantity env a ≠ 0
    · rw [if_pos hcond]
      exact ih _ (nodupKeys_dinsert _ _ h)
    · rw [if_neg hcond]
      exact ih _ h

theorem mem_targetLoop (env : Env) (tolqs : List (Contract × ℚ)) {c : Contract} {q : ℚ} :
    ∀ {l acc : List (Contract × ℚ)}, (c, q) ∈ targetLoop env tolqs acc l →
      (∃ t, (c, t) ∈ l ∧ q = ((⌊t - currentQuantity env c⌋ : ℤ) : ℚ)) ∨ (c, q) ∈ acc := by
  intro l
  induction l with
  | nil => intro acc h; exact Or.inr h
  | cons hd tl ih =>
    intro acc h
    obtain ⟨a, t'⟩ := hd
    simp only [targetLoop] at h
    by_cases hcond : |t' - currentQuantity env a| > (dget? a tolqs).getD 0 ∧
        t' - currentQuantity env a ≠ 0
    · rw [if_pos hcond] at h
      rcases ih h with ⟨t, htl, hq⟩ | hacc
      · exact Or.inl ⟨t, List.mem_cons_of_mem _ htl, hq⟩
      · rcases mem_dinsert hacc with heq | hmem
        · injection heq with hca hq
          subst hca
          exact Or.inl ⟨t', List.mem_cons_self _ _, hq⟩
        · exact Or.inr hmem
    · rw [if_neg hcond] at h
      rcases ih h with ⟨t, htl, hq⟩ | hacc
      · exact Or.inl ⟨t, List.mem_cons_of_mem _ htl, hq⟩
      · exact Or.inr hacc

/-- Result-shape lemmas: every successful public call returns an order
list built by the order builder. -/

theorem valueOrders_ok {env : Env} {vals : List (Contract × ℚ)} {es : ExecStyle}
    {tif : TimeInForce} {l : List Order}
    (h : (valueOrders env vals es tif).1 = Except.ok l) :
    ∃ tq tolq, (calcTargetShares env vals 0).1 = Except.ok (tq, tolq) ∧
      l = ordersFn (tq.map (fun p => (p.1, ((⌊p.2⌋ : ℤ) : ℚ)))) es tif := by
  unfold valueOrders at h
  rcases hcalc : calcTargetShares env vals 0 with ⟨res, tr⟩
  rw [hcalc] at h
  cases res with
  | error f => simp at h
  | ok p =>
    rcases p with ⟨tq, tolq⟩
    simp at h
    exact ⟨tq, tolq, rfl, h.symm⟩

theorem percentOrders_fst_eq (env : Env) (pcts : List (Contract × ℚ)) (es : ExecStyle)
    (tif : TimeInForce) :
    (percentOrders env pcts es tif).1 =
      (valueOrders env (pcts.map (fun p => (p.1, env.portfolio_value * p.2))) es tif).1 := rfl

theorem targetValueOrders_ok {env : Env} {tvs : List (Contract × ℚ)} {es : ExecStyle}
    {tif : TimeInForce} {tp : ℚ} {l : List Order}
    (h : (targetValueOrders env tvs es tif tp).1 = Except.ok l) :
    ∃ tq tolq, (0 ≤ tp ∧ tp < 1) ∧ (calcTargetShares env tvs tp).1 = Except.ok (tq, tolq) ∧
      l = ordersFn (targetLoop env tolq [] tq) es tif := by
  unfold targetValueOrders at h
  by_cases hv : 0 ≤ tp ∧ tp < 1
  · rw [if_pos hv] at h
    rcases hcalc : calcTargetShares env tvs tp with ⟨res, tr⟩
    rw [hcalc] at h
    cases res with
    | error f => simp at h
    | ok p =>
      rcases p with ⟨tq, tolq⟩
      simp [targetOrdersCall] at h
      exact ⟨tq, tolq, hv, rfl, h.symm⟩
  · rw [if_neg hv] at h
    simp at h

/-- Monetary-resolution lemmas. -/

theorem resolveLoop_error_priceClass (env : Env) (tp : ℚ) :
    ∀ (l : List (Ticker × (Contract × ℚ))) (tq tolq : List (Contract × ℚ)) (f : Fault),
      resolveLoop env tp tq tolq l = Except.error f → f.priceClass = true := by
  intro l
  induction l with
  | nil =>
    intro tq tolq f h
    simp [resolveLoop] at h
  | cons hd tl ih =>
    intro tq tolq f h
    obtain ⟨t, c, m⟩ := hd
    simp only [resolveLoop] at h
    cases hp : env.last_price t with
    | none =>
      simp only [hp] at h
      injection h with h'
      subst h'
      rfl
    | some price =>
      simp only [hp] at h
      by_cases hz : price * c.contract_size = 0
      · rw [if_pos hz] at h
        injection h with h'
        subst h'
        rfl
      · rw [if_neg hz] at h
        exact ih _ _ _ h

theorem resolveLoop_error_of_badPrice (env : Env) (tp : ℚ) :
    ∀ (l : List (Ticker × (Contract × ℚ))), badPrice env l →
      ∀ (tq tolq : List (Contract × ℚ)), ∃ f, resolveLoop env tp tq tolq l = Except.error f := by
  intro l
  induction l with
  | nil =>
    intro hb
    rcases hb with ⟨t, c, m, hmem, _⟩
    simp at hmem
  | cons hd tl ih =>
    intro hb tq tolq
    obtain ⟨t, c, m⟩ := hd
    cases hp : env.last_price t with
    | none =>
      refine ⟨Fault.priceUnavailable t, ?_⟩
      simp only [resolveLoop, hp]
    | some price =>
      by_cases hz : price * c.contract_size = 0
      · refine ⟨Fault.zeroDivisor t, ?_⟩
        simp only [resolveLoop, hp]
        rw [if_pos hz]
      · have hb' : badPrice env tl := by
          rcases hb with ⟨t', c', m', hmem, hbad⟩
          rcases List.mem_cons.mp hmem with heq | htl
          · injection heq with h1 h2
            injection h2 with h3 h4
            subst h1
            subst h3
            rcases hbad with hnone | ⟨p, hp', hz'⟩
            · rw [hp] at hnone
              cases hnone
            · rw [hp] at hp'
              injection hp' with hpp
              subst hpp
              exact absurd hz' hz
          · exact ⟨t', c', m', htl, hbad⟩
        rcases ih hb' (dinsert c (m / (price * c.contract_size)) tq)
          (dinsert c (m / (price * c.contract_size) * tp) tolq) with ⟨f, hf⟩
        refine ⟨f, ?_⟩
        simp only [resolveLoop, hp]
        rw [if_neg hz]
        exact hf

theorem mem_resolveLoop_ok (env : Env) (tp : ℚ) :
    ∀ (l : List (Ticker × (Contract × ℚ))) (tq0 tolq0 tq tolq : List (Contract × ℚ)),
      resolveLoop env tp tq0 tolq0 l = Except.ok (tq, tolq) →
      ∀ c q, (c, q) ∈ tq →
        (∃ t m p, (t, (c, m)) ∈ l ∧ env.last_price t = some p ∧
          p * c.contract_size ≠ 0 ∧ q = m / (p * c.contract_size)) ∨ (c, q) ∈ tq0 := by
  intro l
  induction l with
  | nil =>
    intro tq0 tolq0 tq tolq h c q hq
    simp only [resolveLoop] at h
    injection h with h'
    injection h' with h1 h2
    subst h1
    exact Or.inr hq
  | cons hd tl ih =>
    intro tq0 tolq0 tq tolq h c q hq
    obtain ⟨t', c', m'⟩ := hd
    simp only [resolveLoop] at h
    cases hp : env.last_price t' with
    | none =>
      simp only [hp] at h
      cases h
    | some price =>
      simp only [hp] at h
      by_cases hz : price * c'.contract_size = 0
      · rw [if_pos hz] at h
        cases h
      · rw [if_neg hz] at h
        rcases ih _ _ _ _ h c q hq with ⟨t, m, p, hmem, hpr, hnz, heq⟩ | hacc
        · exact Or.inl ⟨t, m, p, List.mem_cons_of_mem _ hmem, hpr, hnz, heq⟩
        · rcases mem_dinsert hacc with heq | hmem
          · injection heq with h1 h2
            subst h1
            subst h2
            exact Or.inl ⟨t', m', price, List.mem_cons_self _ _, hp, hz, rfl⟩
          · exact Or.inr hmem

theorem resolveLoop_tolq (env : Env) (tp : ℚ) :
    ∀ (l : List (Ticker × (Contract × ℚ))) (tq0 tq tolq : List (Contract × ℚ)),
      resolveLoop env tp tq0 (tq0.map (fun p => (p.1, p.2 * tp))) l = Except.ok (tq, tolq) →
      tolq = tq.map (fun p => (p.1, p.2 * tp)) := by
  intro l
  induction l with
  | nil =>
    intro tq0 tq tolq h
    simp only [resolveLoop] at h
    injection h with h'
    injection h' with h1 h2
    subst h1
    exact h2.symm
  | cons hd tl ih =>
    intro tq0 tq tolq h
    obtain ⟨t, c, m⟩ := hd
    simp only [resolveLoop] at h
    cases hp : env.last_price t with
    | none =>
      simp only [hp] at h
      cases h
    | some price =>
      simp only [hp] at h
      by_cases hz : price * c.contract_size = 0
      · rw [if_pos hz] at h
        cases h
      · rw [if_neg hz] at h
        rw [dinsert_map (fun x => x * tp) c (m / (price * c.contract_size)) tq0] at h
        exact ih _ _ _ h

theorem mem_makeTickers_ok (env : Env) :
    ∀ (l : List (Contract × ℚ)) (acc d : List (Ticker × (Contract × ℚ))),
      makeTickers env acc l = Except.ok d →
      ∀ t c m, (t, (c, m)) ∈ d →
        ((c, m) ∈ l ∧ env.contract_to_ticker c = some t) ∨ (t, (c, m)) ∈ acc := by
  intro l
  induction l with
  | nil =>
    intro acc d h t c m hmem
    simp only [makeTickers] at h
    injection h with h'
    subst h'
    exact Or.inr hmem
  | cons hd tl ih =>
    intro acc d h t c m hmem
    obtain ⟨a, am⟩ := hd
    simp only [makeTickers] at h
    cases hm : env.contract_to_ticker a with
    | none =>
      simp only [hm] at h
      cases h
    | some t' =>
      simp only [hm] at h
      rcases ih _ _ h t c m hmem with ⟨hml, hmt⟩ | hacc
      · exact Or.inl ⟨List.mem_cons_of_mem _ hml, hmt⟩
      · rcases mem_dinsert hacc with heq | hmem'
        · injection heq with h1 h2
          injection h2 with h3 h4
          subst h1
          subst h3
          subst h4
          exact Or.inl ⟨List.mem_cons_self _ _, hm⟩
        · exact Or.inr hmem'

theorem makeTickers_error_of_unmapped (env : Env) :
    ∀ (l : List (Contract × ℚ)), (∃ p ∈ l, env.contract_to_ticker p.1 = none) →
      ∀ acc, ∃ c, makeTickers env acc l = Except.error (Fault.mapping c) := by
  intro l
  induction l with
  | nil =>
    intro hex
    rcases hex with ⟨p, hp, _⟩
    simp at hp
  | cons hd tl ih =>
    intro hex acc
    obtain ⟨a, am⟩ := hd
    cases hm : env.contract_to_ticker a with
    | none =>
      refine ⟨a, ?_⟩
      simp only [makeTickers, hm]
    | some t =>
      have hex' : ∃ p ∈ tl, env.contract_to_ticker p.1 = none := by
        rcases hex with ⟨p, hp, hnone⟩
        rcases List.mem_cons.mp hp with heq | htl
        · subst heq
          rw [hm] at hnone
          cases hnone
        · exact ⟨p, htl, hnone⟩
      rcases ih hex' (dinsert t (a, am) acc) with ⟨c, hc⟩
      refine ⟨c, ?_⟩
      simp only [makeTickers, hm]
      exact hc

/-- `calcTargetShares` composition lemmas. -/

theorem calcTargetShares_ok {env : Env} {money : List (Contract × ℚ)} {tp : ℚ}
    {tq tolq : List (Contract × ℚ)}
    (h : (calcTargetShares env money tp).1 = Except.ok (tq, tolq)) :
    ∃ d, makeTickers env [] money = Except.ok d ∧
      resolveLoop env tp [] [] d = Except.ok (tq, tolq) := by
  unfold calcTargetShares at h
  cases hmk : makeTickers env [] money with
  | error f =>
    rw [hmk] at h
    cases h
  | ok d =>
    rw [hmk] at h
    exact ⟨d, rfl, h⟩

theorem calcTargetShares_error_of_badPrice {env : Env} {money : List (Contract × ℚ)}
    (tp : ℚ) {d : List (Ticker × (Contract × ℚ))}
    (hmk : makeTickers env [] money = Except.ok d) (hb : badPrice env d) :
    ∃ f, (calcTargetShares env money tp).1 = Except.error f ∧ f.priceClass = true := by
  rcases resolveLoop_error_of_badPrice env tp d hb [] [] with ⟨f, hf⟩
  refine ⟨f, ?_, resolveLoop_error_priceClass env tp d [] [] f hf⟩
  unfold calcTargetShares
  rw [hmk]
  exact hf

theorem calcTargetShares_error_of_unmapped {env : Env} {money : List (Contract × ℚ)}
    (tp : ℚ) (hex : ∃ p ∈ money, env.contract_to_ticker p.1 = none) :
    ∃ c, (calcTargetShares env money tp).1 = Except.error (Fault.mapping c) := by
  rcases makeTickers_error_of_unmapped env money hex [] with ⟨c, hc⟩
  refine ⟨c, ?_⟩
  unfold calcTargetShares
  rw [hc]

theorem valueOrders_error {env : Env} {vals : List (Contract × ℚ)} {es : ExecStyle}
    {tif : TimeInForce} {f : Fault}
    (h : (calcTargetShares env vals 0).1 = Except.error f) :
    (valueOrders env vals es tif).1 = Except.error f := by
  unfold valueOrders
  rcases hcalc : calcTargetShares env vals 0 with ⟨res, tr⟩
  rw [hcalc] at h
  dsimp at h
  subst h
  rfl

theorem targetValueOrders_error {env : Env} {tvs : List (Contract × ℚ)} {es : ExecStyle}
    {tif : TimeInForce} {tp : ℚ} {f : Fault} (hv : 0 ≤ tp ∧ tp < 1)
    (h : (calcTargetShares env tvs tp).1 = Except.error f) :
    (targetValueOrders env tvs es tif tp).1 = Except.error f := by
  unfold targetValueOrders
  rw [if_pos hv]
  rcases hcalc : calcTargetShares env tvs tp with ⟨res, tr⟩
  rw [hcalc] at h
  dsimp at h
  subst h
  rfl

theorem targetPercentOrders_fst_eq (env : Env) (pcts : List (Contract × ℚ))
    (es : ExecStyle) (tif : TimeInForce) (tp : ℚ) :
    (targetPercentOrders env pcts es tif tp).1 =
      (targetValueOrders env (pcts.map (fun p => (p.1, env.portfolio_value * p.2)))
        es tif tp).1 := by
  unfold targetPercentOrders
  by_cases hv : 0 ≤ tp ∧ tp < 1
  · rw [if_pos hv]
  · rw [if_neg hv]
    unfold targetValueOrders
    rw [if_neg hv]

theorem dget?_of_mem_nodup {κ α : Type} [DecidableEq κ] {k : κ} {v : α}
    {l : List (κ × α)} (hnd : (l.map Prod.fst).Nodup) (h : (k, v) ∈ l) :
    dget? k l = some v := by
  induction l with
  | nil => simp at h
  | cons hd tl ih =>
    obtain ⟨a, b⟩ := hd
    rw [List.map_cons, List.nodup_cons] at hnd
    rcases List.mem_cons.mp h with heq | htl
    · injection heq with h1 h2
      subst h1
      subst h2
      simp [dget?]
    · have hak : a ≠ k := by
        intro hh
        apply hnd.1
        rw [hh]
        exact List.mem_map.mpr ⟨(k, v), htl, rfl⟩
      simp only [dget?, if_neg hak]
      exact ih hnd.2 htl

theorem okNoZero_of {r : Except Fault (List Order) × List ReadEvent}
    (h : ∀ l, r.1 = Except.ok l → ∃ qs es tif, l = ordersFn qs es tif) : okNoZero r := by
  intro l hl o ho
  rcases h l hl with ⟨qs, es, tif, rfl⟩
  exact ordersFn_quantity_ne_zero ho

theorem targetOrders_int {env : Env} {tqs tolqs : List (Contract × ℚ)} {es : ExecStyle}
    {tif : TimeInForce} {l : List Order}
    (hl : (targetOrdersCall env tqs tolqs es tif).1 = Except.ok l) :
    ∀ o ∈ l, ∃ z : ℤ, o.quantity = (z : ℚ) := by
  intro o ho
  have hll : l = ordersFn (targetLoop env tolqs [] tqs) es tif :=
    (Except.ok.inj hl).symm
  subst hll
  have hmem := (mem_ordersFn.mp ho).1
  rcases mem_targetLoop env tolqs hmem with ⟨t, _, hq⟩ | hacc
  · exact ⟨⌊t - currentQuantity env o.contract⌋, hq⟩
  · simp at hacc

theorem valueOrders_int {env : Env} {vals : List (Contract × ℚ)} {es : ExecStyle}
    {tif : TimeInForce} {l : List Order}
    (hl : (valueOrders env vals es tif).1 = Except.ok l) :
    ∀ o ∈ l, ∃ z : ℤ, o.quantity = (z : ℚ) := by
  intro o ho
  rcases valueOrders_ok hl with ⟨tq, tolq, _, rfl⟩
  have hmem := (mem_ordersFn.mp ho).1
  rcases List.mem_map.mp hmem with ⟨p, _, hp⟩
  injection hp with h1 h2
  exact ⟨⌊p.2⌋, h2.symm⟩

/-- C1: for every input to each of the six public call shapes, the
returned order list contains no order with quantity 0; in the order
builder, every pair with amount 0 is silently dropped and every pair with
a non-zero amount yields exactly one order, so one instrument yields at
most one order. -/
theorem no_zero_quantity_invariant (env : Env) (qs tolqs : List (Contract × ℚ))
    (es : ExecStyle) (tif : TimeInForce) (tp : ℚ) :
    okNoZero (ordersCall qs es tif) ∧
      okNoZero (targetOrdersCall env qs tolqs es tif) ∧
      okNoZero (valueOrders env qs es tif) ∧
      okNoZero (percentOrders env qs es tif) ∧
      okNoZero (targetValueOrders env qs es tif tp) ∧
      okNoZero (targetPercentOrders env qs es tif tp) ∧
      ((qs.map Prod.fst).Nodup → ∀ c q, (c, q) ∈ qs →
        (ordersFn qs es tif).countP (fun o => decide (o.contract = c)) =
          if q = 0 then 0 else 1) := by
  refine ⟨?_, ?_, ?_, ?_, ?_, ?_, ?_⟩
  · exact okNoZero_of (fun l hl => ⟨qs, es, tif, (Except.ok.inj hl).symm⟩)
  · exact okNoZero_of (fun l hl =>
      ⟨targetLoop env tolqs [] qs, es, tif, (Except.ok.inj hl).symm⟩)
  · exact okNoZero_of (fun l hl => by
      rcases valueOrders_ok hl with ⟨tq, tolq, _, rfl⟩
      exact ⟨_, es, tif, rfl⟩)
  · exact okNoZero_of (fun l hl => by
      rw [percentOrders_fst_eq] at hl
      rcases valueOrders_ok hl with ⟨tq, tolq, _, rfl⟩
      exact ⟨_, es, tif, rfl⟩)
  · exact okNoZero_of (fun l hl => by
      rcases targetValueOrders_ok hl with ⟨tq, tolq, _, _, rfl⟩
      exact ⟨_, es, tif, rfl⟩)
  · exact okNoZero_of (fun l hl => by
      rw [targetPercentOrders_fst_eq] at hl
      rcases targetValueOrders_ok hl with ⟨tq, tolq, _, _, rfl⟩
      exact ⟨_, es, tif, rfl⟩)
  · intro hnd c q hmem
    exact countP_ordersFn hnd hmem

/-- C1 witness: a concrete non-zero pair yields exactly one order. -/
theorem no_zero_quantity_invariant_witness :
    (ordersFn [(cA, (5 : ℚ))] 0 0).countP (fun o => decide (o.contract = cA)) = 1 := by
  have h := (no_zero_quantity_invariant env1 [(cA, (5 : ℚ))] [] 0 0 0).2.2.2.2.2.2
    (by simp) cA 5 (by simp)
  simpa using h

/-- C2 counterexample: with no existing position, target quantity 1/2 and
no tolerance entry, delta = 1/2 satisfies |delta| > tolerance and
delta ≠ 0, yet `target_orders` returns the empty order list — no order of
quantity floor(delta) (= 0) is contributed, contradicting the claimed
"contributes an order iff" condition. -/
theorem target_orders_fractional_delta_counterexample :
    (|(1 : ℚ) / 2 - currentQuantity env1 cA| > (0 : ℚ) ∧
      (1 : ℚ) / 2 - currentQuantity env1 cA ≠ 0) ∧
    (targetOrdersCall env1 [(cA, 1 / 2)] [] 0 0).1 = Except.ok [] := by
  have hcur : currentQuantity env1 cA = 0 := rfl
  constructor
  · rw [hcur]
    norm_num
  · have hloop : targetLoop env1 [] [] [(cA, 1 / 2)] = [(cA, ((0 : ℤ) : ℚ))] := by
      simp only [targetLoop, hcur, dget?, dinsert]
      norm_num
    have : (targetOrdersCall env1 [(cA, 1 / 2)] [] 0 0).1 =
        Except.ok (ordersFn (targetLoop env1 [] [] [(cA, 1 / 2)]) 0 0) := rfl
    rw [this, hloop]
    norm_num [ordersFn]

/-- C2 (amended): in `target_orders`, per listed instrument with
current = held quantity or 0, delta = target - current and tolerance
defaulting to 0 when absent, the output contains exactly one order for
that instrument iff |delta| > tolerance, delta ≠ 0 and floor(delta) ≠ 0
(the floored delta passes the order builder's zero gate), and any such
order carries quantity floor(delta) — floor of the signed delta. -/
theorem target_orders_reconciliation (env : Env) (tqs tolqs : List (Contract × ℚ))
    (es : ExecStyle) (tif : TimeInForce) (hnd : (tqs.map Prod.fst).Nodup)
    (c : Contract) (t : ℚ) (hmem : (c, t) ∈ tqs) (l : List Order)
    (hl : (targetOrdersCall env tqs tolqs es tif).1 = Except.ok l) :
    (l.countP (fun o => decide (o.contract = c)) =
      if |t - currentQuantity env c| > (dget? c tolqs).getD 0 ∧
          t - currentQuantity env c ≠ 0 ∧ ((⌊t - currentQuantity env c⌋ : ℤ) : ℚ) ≠ 0
        then 1 else 0) ∧
    ∀ o ∈ l, o.contract = c → o.quantity = ((⌊t - currentQuantity env c⌋ : ℤ) : ℚ) := by
  have hll : l = ordersFn (targetLoop env tolqs [] tqs) es tif :=
    (Except.ok.inj hl).symm
  subst hll
  have hndL : ((targetLoop env tolqs [] tqs).map Prod.fst).Nodup :=
    targetLoop_nodupKeys env tolqs tqs [] (by simp)
  have hchar := targetLoop_dget env tolqs hnd hmem []
  constructor
  · by_cases hcond : |t - currentQuantity env c| > (dget? c tolqs).getD 0 ∧
        t - currentQuantity env c ≠ 0
    · rw [if_pos hcond] at hchar
      have hmemL : (c, ((⌊t - currentQuantity env c⌋ : ℤ) : ℚ)) ∈
          targetLoop env tolqs [] tqs := dget?_eq_some_mem hchar
      rw [countP_ordersFn hndL hmemL]
      by_cases hfl : ((⌊t - currentQuantity env c⌋ : ℤ) : ℚ) = 0
      · rw [if_pos hfl, if_neg (fun hh => hh.2.2 hfl)]
      · rw [if_neg hfl, if_pos ⟨hcond.1, hcond.2, hfl⟩]
    · rw [if_neg hcond] at hchar
      have hnotin : c ∉ (targetLoop env tolqs [] tqs).map Prod.fst := by
        rw [← dget?_eq_none_iff]
        simpa [dget?] using hchar
      rw [countP_ordersFn_not_mem es tif hnotin, if_neg (fun hh => hcond ⟨hh.1, hh.2.1⟩)]
  · intro o ho hc
    have hmemo := (mem_ordersFn.mp ho).1
    rw [hc] at hmemo
    have := dget?_of_mem_nodup hndL hmemo
    rw [hchar] at this
    by_cases hcond : |t - currentQuantity env c| > (dget? c tolqs).getD 0 ∧
        t - currentQuantity env c ≠ 0
    · rw [if_pos hcond] at this
      exact (Option.some.inj this).symm
    · rw [if_neg hcond] at this
      simp [dget?] at this

/-- C2 witness: with no position and integer target 1, the reconciliation
emits exactly one order for the instrument. -/
theorem target_orders_reconciliation_witness :
    ∃ l, (targetOrdersCall env1 [(cA, (1 : ℚ))] [] 0 0).1 = Except.ok l ∧
      l.countP (fun o => decide (o.contract = cA)) = 1 := by
  refine ⟨_, rfl, ?_⟩
  have h := (target_orders_reconciliation env1 [(cA, (1 : ℚ))] [] 0 0 (by simp) cA 1
    (by simp) _ rfl).1
  rw [h, if_pos]
  have hcur : currentQuantity env1 cA = 0 := rfl
  rw [hcur]
  simp [dget?]

/-- C3 counterexample: a fractional amount passed directly to `orders` is
emitted unchanged, not floored: quantity 5/2 appears verbatim in the
output even though 5/2 ≠ floor(5/2). -/
theorem orders_no_defensive_floor_counterexample :
    ordersFn [(cA, (5 : ℚ) / 2)] 0 0 =
      [{ contract := cA, quantity := 5 / 2, execution_style := 0, time_in_force := 0 }] ∧
    ((5 : ℚ) / 2) ≠ ((⌊(5 : ℚ) / 2⌋ : ℤ) : ℚ) := by
  constructor
  · norm_num [ordersFn]
  · norm_num

/-- C3 (amended): the order builder `orders` does not floor — it emits
every non-zero amount unchanged as the order quantity; the floor is
instead applied by the callers (`target_orders` floors the signed delta,
`value_orders` floors the resolved share quantity) before `orders` is
reached, so every order produced by the five derived call shapes carries a
whole-number quantity, while a fractional amount passed directly to
`orders` is passed through unfloored. -/
theorem orders_passthrough_callers_floor (env : Env) (qs tqs tolqs : List (Contract × ℚ))
    (es : ExecStyle) (tif : TimeInForce) (tp : ℚ) :
    (∀ o ∈ ordersFn qs es tif, (o.contract, o.quantity) ∈ qs) ∧
      (∀ l, (targetOrdersCall env tqs tolqs es tif).1 = Except.ok l →
        ∀ o ∈ l, ∃ z : ℤ, o.quantity = (z : ℚ)) ∧
      (∀ l, (valueOrders env qs es tif).1 = Except.ok l →
        ∀ o ∈ l, ∃ z : ℤ, o.quantity = (z : ℚ)) ∧
      (∀ l, (percentOrders env qs es tif).1 = Except.ok l →
        ∀ o ∈ l, ∃ z : ℤ, o.quantity = (z : ℚ)) ∧
      (∀ l, (targetValueOrders env tqs es tif tp).1 = Except.ok l →
        ∀ o ∈ l, ∃ z : ℤ, o.quantity = (z : ℚ)) ∧
      (∀ l, (targetPercentOrders env tqs es tif tp).1 = Except.ok l →
        ∀ o ∈ l, ∃ z : ℤ, o.quantity = (z : ℚ)) := by
  refine ⟨fun o ho => (mem_ordersFn.mp ho).1, ?_, ?_, ?_, ?_, ?_⟩
  · exact fun l hl => targetOrders_int hl
  · exact fun l hl => valueOrders_int hl
  · intro l hl
    rw [percentOrders_fst_eq] at hl
    exact valueOrders_int hl
  · intro l hl
    rcases targetValueOrders_ok hl with ⟨tq, tolq, _, _, rfl⟩
    exact targetOrders_int rfl
  · intro l hl
    rw [targetPercentOrders_fst_eq] at hl
    rcases targetValueOrders_ok hl with ⟨tq, tolq, _, _, rfl⟩
    exact targetOrders_int rfl

/-- C3 witness: the reconciled shape emits a whole-number quantity on a
concrete input. -/
theorem orders_passthrough_callers_floor_witness :
    ∃ z : ℤ, (Order.mk cA (1 : ℚ) 0 0).quantity = (z : ℚ) := by
  have h := (orders_passthrough_callers_floor env1 [] [(cA, (1 : ℚ))] [] 0 0 0).2.1
    (ordersFn (targetLoop env1 [] [] [(cA, (1 : ℚ))]) 0 0) rfl
  apply h
  have hcur : currentQuantity env1 cA = 0 := rfl
  have hloop : targetLoop env1 [] [] [(cA, (1 : ℚ))] = [(cA, (1 : ℚ))] := by
    simp [targetLoop, hcur, dget?, dinsert]
  rw [hloop]
  simp [ordersFn]

/-- C9: the percentage call shapes reduce exactly to the value call
shapes: with V the portfolio value read from the broker, `percent_orders`
returns the order list of `value_orders` on the scaled money mapping, and
`target_percent_orders` that of `target_value_orders` on the scaled money
mapping with the same tolerance fraction. -/
theorem percent_calls_reduce_to_value_calls (env : Env) (pcts : List (Contract × ℚ))
    (es : ExecStyle) (tif : TimeInForce) (tp : ℚ) :
    (percentOrders env pcts es tif).1 =
      (valueOrders env (pcts.map (fun p => (p.1, env.portfolio_value * p.2))) es tif).1 ∧
    (targetPercentOrders env pcts es tif tp).1 =
      (targetValueOrders env (pcts.map (fun p => (p.1, env.portfolio_value * p.2)))
        es tif tp).1 :=
  ⟨percentOrders_fst_eq env pcts es tif, targetPercentOrders_fst_eq env pcts es tif tp⟩

/-- Environment-congruence lemmas: the monetary-resolution pipeline reads
only the mapper and the price lookup. -/

theorem makeTickers_congr {env env2 : Env}
    (h : env2.contract_to_ticker = env.contract_to_ticker) :
    ∀ (l : List (Contract × ℚ)) (acc : List (Ticker × (Contract × ℚ))),
      makeTickers env2 acc l = makeTickers env acc l := by
  intro l
  induction l with
  | nil => intro acc; rfl
  | cons hd tl ih =>
    intro acc
    obtain ⟨c, m⟩ := hd
    cases hm : env.contract_to_ticker c with
    | none => simp only [makeTickers, h, hm]
    | some t =>
      simp only [makeTickers, h, hm]
      exact ih _

theorem resolveLoop_congr {env env2 : Env} (h : env2.last_price = env.last_price) :
    ∀ (l : List (Ticker × (Contract × ℚ))) (tp : ℚ) (tq tolq : List (Contract × ℚ)),
      resolveLoop env2 tp tq tolq l = resolveLoop env tp tq tolq l := by
  intro l
  induction l with
  | nil => intro tp tq tolq; rfl
  | cons hd tl ih =>
    intro tp tq tolq
    obtain ⟨t, c, m⟩ := hd
    cases hp : env.last_price t with
    | none => simp only [resolveLoop, h, hp]
    | some price =>
      simp only [resolveLoop, h, hp]
      by_cases hz : price * c.contract_size = 0
      · rw [if_pos hz, if_pos hz]
      · rw [if_neg hz, if_neg hz]
        exact ih _ _ _

theorem valueOrders_congr {env env2 : Env}
    (h1 : env2.contract_to_ticker = env.contract_to_ticker)
    (h2 : env2.last_price = env.last_price) (vals : List (Contract × ℚ))
    (es : ExecStyle) (tif : TimeInForce) :
    valueOrders env2 vals es tif = valueOrders env vals es tif := by
  unfold valueOrders calcTargetShares
  rw [makeTickers_congr h1]
  cases makeTickers env [] vals with
  | error f => rfl
  | ok d =>
    dsimp only
    rw [resolveLoop_congr h2]

theorem valueOrders_trace (env : Env) (vals : List (Contract × ℚ)) (es : ExecStyle)
    (tif : TimeInForce) :
    (valueOrders env vals es tif).2 = (calcTargetShares env vals 0).2 := by
  unfold valueOrders
  rcases calcTargetShares env vals 0 with ⟨res, tr⟩
  cases res with
  | error f => rfl
  | ok p =>
    rcases p with ⟨tq, tolq⟩
    rfl

theorem calcTargetShares_trace (env : Env) (money : List (Contract × ℚ)) (tp : ℚ) :
    (calcTargetShares env money tp).2 = [] ∨
      ∃ ts, (calcTargetShares env money tp).2 = [ReadEvent.getLastAvailablePrice ts] := by
  unfold calcTargetShares
  cases makeTickers env [] money with
  | error f => exact Or.inl rfl
  | ok d => exact Or.inr ⟨d.map Prod.fst, rfl⟩

/-- C4: `value_orders` is absolute, not delta-based: its result depends
only on the mapper and the price lookup (so repeating the call after any
position or portfolio-value change yields the same order list), its read
trace contains only price reads — no position or portfolio-value read —
and every emitted order quantity is floor(money / (price *
contract_multiplier)) for its instrument's money amount, fed straight to
the order builder. -/
theorem value_orders_absolute (env env2 : Env) (vals : List (Contract × ℚ))
    (es : ExecStyle) (tif : TimeInForce) :
    (env2.contract_to_ticker = env.contract_to_ticker →
      env2.last_price = env.last_price →
      valueOrders env2 vals es tif = valueOrders env vals es tif) ∧
    (∀ e ∈ (valueOrders env vals es tif).2, ∃ ts, e = ReadEvent.getLastAvailablePrice ts) ∧
    (∀ l, (valueOrders env vals es tif).1 = Except.ok l → ∀ o ∈ l,
      ∃ t p m, (o.contract, m) ∈ vals ∧ env.contract_to_ticker o.contract = some t ∧
        env.last_price t = some p ∧ p * o.contract.contract_size ≠ 0 ∧
        o.quantity = ((⌊m / (p * o.contract.contract_size)⌋ : ℤ) : ℚ)) := by
  refine ⟨fun h1 h2 => valueOrders_congr h1 h2 vals es tif, ?_, ?_⟩
  · intro e he
    rw [valueOrders_trace] at he
    rcases calcTargetShares_trace env vals 0 with htr | ⟨ts, htr⟩
    · rw [htr] at he
      simp at he
    · rw [htr] at he
      rw [List.mem_singleton] at he
      exact ⟨ts, he⟩
  · intro l hl o ho
    rcases valueOrders_ok hl with ⟨tq, tolq, hcalc, rfl⟩
    rcases calcTargetShares_ok hcalc with ⟨d, hmk, hres⟩
    have hmem := (mem_ordersFn.mp ho).1
    rcases List.mem_map.mp hmem with ⟨⟨c, q⟩, hctq, hpair⟩
    injection hpair with hc hq
    dsimp at hc hq
    subst hc
    rcases mem_resolveLoop_ok env 0 d [] [] tq tolq hres o.contract q hctq with
      ⟨t, m, p, hmemd, hpr, hnz, rfl⟩ | habs
    · refine ⟨t, p, m, ?_, ?_, hpr, hnz, hq.symm⟩
      · rcases mem_makeTickers_ok env vals [] d hmk t o.contract m hmemd with ⟨hv, _⟩ | habs
        · exact hv
        · simp at habs
      · rcases mem_makeTickers_ok env vals [] d hmk t o.contract m hmemd with ⟨_, ht⟩ | habs
        · exact ht
        · simp at habs
    · simp at habs

/-- C4 witness: changing the positions and the portfolio value leaves the
value-orders result untouched. -/
theorem value_orders_absolute_witness :
    valueOrders
        { env1 with positions := [{ contract := cA, quantity := 7 }], portfolio_value := 55 }
        [(cA, (3 : ℚ))] 0 0 =
      valueOrders env1 [(cA, (3 : ℚ))] 0 0 :=
  (value_orders_absolute env1
    { env1 with positions := [{ contract := cA, quantity := 7 }], portfolio_value := 55 }
    [(cA, (3 : ℚ))] 0 0).1 rfl rfl

/-- C5 counterexample: a negative target money amount with a positive
tolerance fraction resolves to a negative share tolerance: target value
-10000 at price 100 and multiplier 1 with tolerance_fraction 1/2 yields
target_shares = -100 and tolerance_shares = -50 < 0. -/
theorem negative_tolerance_counterexample :
    (calcTargetShares env0 [(cA, (-10000 : ℚ))] (1 / 2)).1 =
      Except.ok ([(cA, (-100 : ℚ))], [(cA, (-50 : ℚ))]) ∧ ((-50 : ℚ)) < 0 := by
  constructor
  · have hmk : makeTickers env0 [] [(cA, (-10000 : ℚ))] =
        Except.ok [(0, (cA, (-10000 : ℚ)))] := rfl
    unfold calcTargetShares
    rw [hmk]
    have hres : resolveLoop env0 (1 / 2) [] [] [(0, (cA, (-10000 : ℚ)))] =
        Except.ok ([(cA, (-100 : ℚ))], [(cA, (-50 : ℚ))]) := by
      simp only [resolveLoop, env0]
      norm_num [dinsert, cA]
    dsimp only
    rw [hres]
  · norm_num

/-- C5 (amended): the resolved share tolerances are exactly the resolved
share targets scaled by the tolerance fraction, so with a non-negative
tolerance fraction every instrument whose resolved target share quantity
is non-negative gets a non-negative tolerance; an instrument with a
negative resolved target (e.g. a negative money amount at a positive
divisor) gets a negative tolerance. -/
theorem tolerance_shares_relation (env : Env) (money : List (Contract × ℚ)) (tp : ℚ)
    (tq tolq : List (Contract × ℚ))
    (h : (calcTargetShares env money tp).1 = Except.ok (tq, tolq)) :
    tolq = tq.map (fun p => (p.1, p.2 * tp)) ∧
    (0 ≤ tp → (∀ q ∈ tq, 0 ≤ q.2) → ∀ q ∈ tolq, 0 ≤ q.2) := by
  rcases calcTargetShares_ok h with ⟨d, _, hres⟩
  have hrel : tolq = tq.map (fun p => (p.1, p.2 * tp)) := by
    apply resolveLoop_tolq env tp d []
    simpa using hres
  refine ⟨hrel, fun htp htq q hq => ?_⟩
  rw [hrel] at hq
  rcases List.mem_map.mp hq with ⟨p, hp, rfl⟩
  exact mul_nonneg (htq p hp) htp

/-- C5 witness: with tolerance fraction 0 the resolved tolerance entry is
non-negative. -/
theorem tolerance_shares_relation_witness :
    (0 : ℚ) ≤ ((cA, (0 : ℚ))).2 := by
  have h := tolerance_shares_relation env1 [(cA, (1 : ℚ))] 0 [(cA, 1)] [(cA, 0)]
    (by simp [calcTargetShares, makeTickers, resolveLoop, dinsert, env1, cA])
  exact h.2 le_rfl (by simp) (cA, 0) (by simp)

theorem targetValueOrders_invalid {env : Env} {tvs : List (Contract × ℚ)}
    {es : ExecStyle} {tif : TimeInForce} {tp : ℚ} (h : ¬(0 ≤ tp ∧ tp < 1)) :
    targetValueOrders env tvs es tif tp = (Except.error Fault.validation, []) := by
  unfold targetValueOrders
  rw [if_neg h]

theorem targetPercentOrders_invalid {env : Env} {tps : List (Contract × ℚ)}
    {es : ExecStyle} {tif : TimeInForce} {tp : ℚ} (h : ¬(0 ≤ tp ∧ tp < 1)) :
    targetPercentOrders env tps es tif tp = (Except.error Fault.validation, []) := by
  unfold targetPercentOrders
  rw [if_neg h]

/-- C6: a tolerance fraction outside [0, 1) makes `target_value_orders`
and `target_percent_orders` fail immediately with the validation fault and
an empty read trace — no position query, portfolio-value query or price
lookup is performed. -/
theorem validation_before_reads (env : Env) (tvs tps : List (Contract × ℚ))
    (es : ExecStyle) (tif : TimeInForce) (tp : ℚ) (h : ¬(0 ≤ tp ∧ tp < 1)) :
    targetValueOrders env tvs es tif tp = (Except.error Fault.validation, []) ∧
    targetPercentOrders env tps es tif tp = (Except.error Fault.validation, []) :=
  ⟨targetValueOrders_invalid h, targetPercentOrders_invalid h⟩

/-- C6 witness: tolerance fraction 1 is rejected with no external read. -/
theorem validation_before_reads_witness :
    targetValueOrders env1 [(cA, (1 : ℚ))] 0 0 1 = (Except.error Fault.validation, []) ∧
    targetPercentOrders env1 [(cA, (1 : ℚ))] 0 0 1 = (Except.error Fault.validation, []) :=
  validation_before_reads env1 [(cA, 1)] [(cA, 1)] 0 0 1 (by simp)

/-- C7: for each monetary call shape (with the tolerance fraction passing
validation for the target shapes), an instrument whose mapped ticker has
no resolvable price, or whose divisor `price * contract_multiplier` is
zero, makes the whole call fail with a PriceUnavailableError-class
fault. -/
theorem price_unavailable_faults (env : Env) (money : List (Contract × ℚ))
    (es : ExecStyle) (tif : TimeInForce) (tp : ℚ) (hv : 0 ≤ tp ∧ tp < 1) :
    (∀ d, makeTickers env [] money = Except.ok d → badPrice env d →
      ∃ f, (valueOrders env money es tif).1 = Except.error f ∧ f.priceClass = true) ∧
    (∀ d, makeTickers env [] (money.map (fun p => (p.1, env.portfolio_value * p.2))) =
        Except.ok d → badPrice env d →
      ∃ f, (percentOrders env money es tif).1 = Except.error f ∧ f.priceClass = true) ∧
    (∀ d, makeTickers env [] money = Except.ok d → badPrice env d →
      ∃ f, (targetValueOrders env money es tif tp).1 = Except.error f ∧
        f.priceClass = true) ∧
    (∀ d, makeTickers env [] (money.map (fun p => (p.1, env.portfolio_value * p.2))) =
        Except.ok d → badPrice env d →
      ∃ f, (targetPercentOrders env money es tif tp).1 = Except.error f ∧
        f.priceClass = true) := by
  refine ⟨?_, ?_, ?_, ?_⟩
  · intro d hmk hb
    rcases calcTargetShares_error_of_badPrice 0 hmk hb with ⟨f, hf, hpc⟩
    exact ⟨f, valueOrders_error hf, hpc⟩
  · intro d hmk hb
    rcases calcTargetShares_error_of_badPrice 0 hmk hb with ⟨f, hf, hpc⟩
    refine ⟨f, ?_, hpc⟩
    rw [percentOrders_fst_eq]
    exact valueOrders_error hf
  · intro d hmk hb
    rcases calcTargetShares_error_of_badPrice tp hmk hb with ⟨f, hf, hpc⟩
    exact ⟨f, targetValueOrders_error hv hf, hpc⟩
  · intro d hmk hb
    rcases calcTargetShares_error_of_badPrice tp hmk hb with ⟨f, hf, hpc⟩
    refine ⟨f, ?_, hpc⟩
    rw [targetPercentOrders_fst_eq]
    exact targetValueOrders_error hv hf

/-- C7 witness: with no resolvable price, the value call fails with a
price-class fault. -/
theorem price_unavailable_faults_witness :
    ∃ f, (valueOrders envNoPrice [(cA, (1 : ℚ))] 0 0).1 = Except.error f ∧
      f.priceClass = true :=
  (price_unavailable_faults envNoPrice [(cA, (1 : ℚ))] 0 0 0 (by simp)).1
    [(0, (cA, (1 : ℚ)))] rfl ⟨0, cA, 1, List.mem_singleton.mpr rfl, Or.inl rfl⟩

/-- C8: failure is all-or-nothing — when any fault condition holds for a
monetary request (an unmapped instrument, a missing price or a zero
divisor in the resolved ticker dict, or an invalid tolerance fraction for
the target shapes), the call returns a fault and no order list at all, so
no order for any instrument of the failing request is returned. -/
theorem all_or_nothing (env : Env) (money : List (Contract × ℚ)) (es : ExecStyle)
    (tif : TimeInForce) (tp : ℚ) :
    (((∃ p ∈ money, env.contract_to_ticker p.1 = none) ∨
        (∃ d, makeTickers env [] money = Except.ok d ∧ badPrice env d)) →
      ∃ f, (valueOrders env money es tif).1 = Except.error f ∧
        ∀ l, (valueOrders env money es tif).1 ≠ Except.ok l) ∧
    (((∃ p ∈ money, env.contract_to_ticker p.1 = none) ∨
        (∃ d, makeTickers env []
            (money.map (fun p => (p.1, env.portfolio_value * p.2))) = Except.ok d ∧
          badPrice env d)) →
      ∃ f, (percentOrders env money es tif).1 = Except.error f ∧
        ∀ l, (percentOrders env money es tif).1 ≠ Except.ok l) ∧
    (((∃ p ∈ money, env.contract_to_ticker p.1 = none) ∨
        (∃ d, makeTickers env [] money = Except.ok d ∧ badPrice env d) ∨
        ¬(0 ≤ tp ∧ tp < 1)) →
      ∃ f, (targetValueOrders env money es tif tp).1 = Except.error f ∧
        ∀ l, (targetValueOrders env money es tif tp).1 ≠ Except.ok l) ∧
    (((∃ p ∈ money, env.contract_to_ticker p.1 = none) ∨
        (∃ d, makeTickers env []
            (money.map (fun p => (p.1, env.portfolio_value * p.2))) = Except.ok d ∧
          badPrice env d) ∨
        ¬(0 ≤ tp ∧ tp < 1)) →
      ∃ f, (targetPercentOrders env money es tif tp).1 = Except.error f ∧
        ∀ l, (targetPercentOrders env money es tif tp).1 ≠ Except.ok l) := by
  have hscale : ∀ hex : ∃ p ∈ money, env.contract_to_ticker p.1 = none,
      ∃ p ∈ money.map (fun p => (p.1, env.portfolio_value * p.2)),
        env.contract_to_ticker p.1 = none := by
    rintro ⟨p, hp, hnone⟩
    exact ⟨(p.1, env.portfolio_value * p.2), List.mem_map.mpr ⟨p, hp, rfl⟩, hnone⟩
  refine ⟨?_, ?_, ?_, ?_⟩
  · intro hfault
    have herr : ∃ f, (valueOrders env money es tif).1 = Except.error f := by
      rcases hfault with hex | ⟨d, hmk, hb⟩
      · rcases calcTargetShares_error_of_unmapped 0 hex with ⟨c, hc⟩
        exact ⟨Fault.mapping c, valueOrders_error hc⟩
      · rcases calcTargetShares_error_of_badPrice 0 hmk hb with ⟨f, hf, _⟩
        exact ⟨f, valueOrders_error hf⟩
    rcases herr with ⟨f, hf⟩
    refine ⟨f, hf, fun l hl => ?_⟩
    rw [hf] at hl
    cases hl
  · intro hfault
    have herr : ∃ f, (percentOrders env money es tif).1 = Except.error f := by
      rcases hfault with hex | ⟨d, hmk, hb⟩
      · rcases calcTargetShares_error_of_unmapped 0 (hscale hex) with ⟨c, hc⟩
        refine ⟨Fault.mapping c, ?_⟩
        rw [percentOrders_fst_eq]
        exact valueOrders_error hc
      · rcases calcTargetShares_error_of_badPrice 0 hmk hb with ⟨f, hf, _⟩
        refine ⟨f, ?_⟩
        rw [percentOrders_fst_eq]
        exact valueOrders_error hf
    rcases herr with ⟨f, hf⟩
    refine ⟨f, hf, fun l hl => ?_⟩
    rw [hf] at hl
    cases hl
  · intro hfault
    have herr : ∃ f, (targetValueOrders env money es tif tp).1 = Except.error f := by
      by_cases hv : 0 ≤ tp ∧ tp < 1
      · rcases hfault with hex | ⟨d, hmk, hb⟩ | hinv
        · rcases calcTargetShares_error_of_unmapped tp hex with ⟨c, hc⟩
          exact ⟨Fault.mapping c, targetValueOrders_error hv hc⟩
        · rcases calcTargetShares_error_of_badPrice tp hmk hb with ⟨f, hf, _⟩
          exact ⟨f, targetValueOrders_error hv hf⟩
        · exact absurd hv hinv
      · refine ⟨Fault.validation, ?_⟩
        rw [targetValueOrders_invalid hv]
    rcases herr with ⟨f, hf⟩
    refine ⟨f, hf, fun l hl => ?_⟩
    rw [hf] at hl
    cases hl
  · intro hfault
    have herr : ∃ f, (targetPercentOrders env money es tif tp).1 = Except.error f := by
      by_cases hv : 0 ≤ tp ∧ tp < 1
      · rcases hfault with hex | ⟨d, hmk, hb⟩ | hinv
        · rcases calcTargetShares_error_of_unmapped tp (hscale hex) with ⟨c, hc⟩
          refine ⟨Fault.mapping c, ?_⟩
          rw [targetPercentOrders_fst_eq]
          exact targetValueOrders_error hv hc
        · rcases calcTargetShares_error_of_badPrice tp hmk hb with ⟨f, hf, _⟩
          refine ⟨f, ?_⟩
          rw [targetPercentOrders_fst_eq]
          exact targetValueOrders_error hv hf
        · exact absurd hv hinv
      · refine ⟨Fault.validation, ?_⟩
        rw [targetPercentOrders_invalid hv]
    rcases herr with ⟨f, hf⟩
    refine ⟨f, hf, fun l hl => ?_⟩
    rw [hf] at hl
    cases hl

/-- C8 witness: an unmapped instrument makes the whole value call fail
with a fault and no order list. -/
theorem all_or_nothing_witness :
    ∃ f, (valueOrders { env1 with contract_to_ticker := fun _ => none }
        [(cA, (1 : ℚ)), (cB, (2 : ℚ))] 0 0).1 = Except.error f := by
  rcases (all_or_nothing { env1 with contract_to_ticker := fun _ => none }
    [(cA, (1 : ℚ)), (cB, (2 : ℚ))] 0 0 0).1
    (Or.inl ⟨(cA, (1 : ℚ)), List.mem_cons_self _ _, rfl⟩) with ⟨f, hf, _⟩
  exact ⟨f, hf⟩

/-- C10: when two distinct contracts are mapped to the same ticker, the
intermediate ticker-keyed dict keeps only the last-iterated contract's
(contract, money) pair — the dict update replaces the earlier entry in
place — so the earlier contract is silently dropped: the monetary call
succeeds (given a usable price) and emits no order for it and no fault. -/
theorem ticker_collision_last_wins (env : Env) (c1 c2 : Contract) (t : Ticker)
    (m1 m2 : ℚ) (es : ExecStyle) (tif : TimeInForce) (hne : c1 ≠ c2)
    (h1 : env.contract_to_ticker c1 = some t) (h2 : env.contract_to_ticker c2 = some t) :
    makeTickers env [] [(c1, m1), (c2, m2)] = Except.ok [(t, (c2, m2))] ∧
    (∀ p, env.last_price t = some p → p * c2.contract_size ≠ 0 →
      ∃ l, (valueOrders env [(c1, m1), (c2, m2)] es tif).1 = Except.ok l ∧
        ∀ o ∈ l, o.contract = c2) := by
  have hmk : makeTickers env [] [(c1, m1), (c2, m2)] = Except.ok [(t, (c2, m2))] := by
    simp [makeTickers, h1, h2, dinsert]
  refine ⟨hmk, ?_⟩
  intro p hp hz
  have hres : resolveLoop env 0 [] [] [(t, (c2, m2))] =
      Except.ok ([(c2, m2 / (p * c2.contract_size))],
        [(c2, m2 / (p * c2.contract_size) * 0)]) := by
    simp only [resolveLoop, hp]
    rw [if_neg hz]
    rfl
  have hv : (valueOrders env [(c1, m1), (c2, m2)] es tif).1 =
      Except.ok (ordersFn
        [(c2, ((⌊m2 / (p * c2.contract_size)⌋ : ℤ) : ℚ))] es tif) := by
    unfold valueOrders calcTargetShares
    rw [hmk]
    dsimp only
    rw [hres]
    rfl
  refine ⟨_, hv, ?_⟩
  intro o ho
  have hmem := (mem_ordersFn.mp ho).1
  rw [List.mem_singleton] at hmem
  exact congrArg Prod.fst hmem

/-- C10 witness: two sample contracts forced onto one ticker leave only
the second one in the ticker dict. -/
theorem ticker_collision_last_wins_witness :
    makeTickers { env0 with contract_to_ticker := fun _ => some 0 } []
        [(cA, (1 : ℚ)), (cB, (2 : ℚ))] = Except.ok [(0, (cB, (2 : ℚ)))] :=
  (ticker_collision_last_wins { env0 with contract_to_ticker := fun _ => some 0 }
    cA cB 0 1 2 0 0 (by simp [cA, cB]) rfl rfl).1

end QfLib
